import Mathlib

/-!
# Verification of `fake-factors/calculate_fake_factors.py`

A shallow embedding of the fake-factor calculation core:
the composition-fraction engine (`determine_fractions`), the per-file
augmentation worker (`apply_fake_factors`) and the job dispatcher (`main`).
Histograms are embedded as functions from bin index to rational bin content
(index 0 is the underflow bin, `nbins + 1` the overflow bin, as in ROOT);
IEEE doubles that may be NaN are embedded as `Option ℚ` with `none` for NaN.
-/

/-- The three detector channels handled by the script. -/
inductive Channel
  | et
  | mt
  | tt
deriving DecidableEq

/-- The fraction groups appearing in the `composition` dictionary of
`determine_fractions`. -/
inductive FGroup
  | data
  | W
  | TT
  | QCD
  | DY
  | real
deriving DecidableEq

/-- The per-channel process lists of the `composition` dictionary
(`determine_fractions`, lines 92-115).  Groups absent for a channel
(DY for et/mt) get the empty list. -/
def composition : Channel → FGroup → List String
  | .et, .data => ["data_obs"]
  | .et, .W => ["W", "VVJ", "ZJ"]
  | .et, .TT => ["TTJ"]
  | .et, .QCD => ["QCD"]
  | .et, .real => ["ZTT", "ZL", "TTT", "VVT"]
  | .et, .DY => []
  | .mt, .data => ["data_obs"]
  | .mt, .W => ["W", "VVJ", "ZJ"]
  | .mt, .TT => ["TTJ"]
  | .mt, .QCD => ["QCD"]
  | .mt, .real => ["ZTT", "ZL", "TTT", "VVT"]
  | .mt, .DY => []
  | .tt, .data => ["data_obs"]
  | .tt, .W => ["W", "VVJ"]
  | .tt, .TT => ["TTJ"]
  | .tt, .QCD => ["QCD"]
  | .tt, .DY => ["ZJ"]
  | .tt, .real => ["ZTT", "ZL", "TTT", "VVT"]

/-- The keys of `composition[channel]`, in insertion order. -/
def channelGroups : Channel → List FGroup
  | .et => [.data, .W, .TT, .QCD, .real]
  | .mt => [.data, .W, .TT, .QCD, .real]
  | .tt => [.data, .W, .TT, .QCD, .DY, .real]

/-- A slice of the histogram template store at a fixed channel, era and
binning expression: `store cat proc i` is the content of bin `i` of the
histogram fetched with key `#ch#ch_cat#proc#smhtt#RunERA#EXPR#125#`. -/
abbrev Store := String → String → ℕ → ℚ

/-- Summed histogram of a non-QCD fraction group: the loop
`for process in composition[channel][fraction]: subsubdict[fraction].Add(...)`
starting from a reset (all-zero) histogram. -/
def rawGroup (store : Store) (ch : Channel) (cat : String) (g : FGroup) (i : ℕ) : ℚ :=
  ((composition ch g).map (fun p => store cat p i)).sum

/-- The QCD histogram before normalisation: starts at zero, then
`QCD.Add(data, +1.0)` and `QCD.Add(other, -1.0)` for every non-QCD group,
in the key order of `composition[channel]` (lines 131-147). -/
def qcdRaw (store : Store) (ch : Channel) (cat : String) (i : ℕ) : ℚ :=
  ((channelGroups ch).filter (fun g => decide (g ≠ FGroup.QCD))).foldl
    (fun acc g =>
      if g = FGroup.data then acc + rawGroup store ch cat g i
      else acc - rawGroup store ch cat g i) 0

/-- ROOT `TH1::Divide` bin arithmetic: a bin with zero denominator is set
to zero. -/
def rootDiv (a b : ℚ) : ℚ := if b = 0 then 0 else a / b

/-- The histogram of a group just before normalisation. -/
def groupRaw (store : Store) (ch : Channel) (cat : String) (g : FGroup) (i : ℕ) : ℚ :=
  if g = FGroup.QCD then qcdRaw store ch cat i else rawGroup store ch cat g i

/-- Fractions after `subsubdict[fraction].Divide(denominator_hist)` where the
denominator is a deep copy of the data histogram (lines 148-151). -/
def fracBefore (store : Store) (ch : Channel) (cat : String) (g : FGroup) (i : ℕ) : ℚ :=
  rootDiv (groupRaw store ch cat g i) (rawGroup store ch cat FGroup.data i)

/-- The negative-QCD sanity correction (lines 152-161): at every bin whose
QCD fraction is negative, QCD is set to zero and every non-data group
(QCD included, now holding zero) is divided by `1 - qcd_fraction`. -/
def correctedFrac (store : Store) (ch : Channel) (cat : String) (g : FGroup) (i : ℕ) : ℚ :=
  let q := fracBefore store ch cat FGroup.QCD i
  if q < 0 then
    if g = FGroup.data then fracBefore store ch cat FGroup.data i
    else if g = FGroup.QCD then 0 / (1 - q)
    else fracBefore store ch cat g i / (1 - q)
  else fracBefore store ch cat g i

/-- The groups whose fractions the spec sums: every key of
`composition[channel]` except `data`. -/
def fractionGroups (ch : Channel) : List FGroup :=
  (channelGroups ch).filter (fun g => decide (g ≠ FGroup.data))

theorem fractionGroups_et : fractionGroups .et = [.W, .TT, .QCD, .real] := rfl

theorem fractionGroups_mt : fractionGroups .mt = [.W, .TT, .QCD, .real] := rfl

theorem fractionGroups_tt : fractionGroups .tt = [.W, .TT, .QCD, .DY, .real] := rfl

theorem qcdFilter_et : (channelGroups Channel.et).filter (fun g => decide (g ≠ FGroup.QCD)) =
    [FGroup.data, FGroup.W, FGroup.TT, FGroup.real] := by decide

theorem qcdFilter_mt : (channelGroups Channel.mt).filter (fun g => decide (g ≠ FGroup.QCD)) =
    [FGroup.data, FGroup.W, FGroup.TT, FGroup.real] := by decide

theorem qcdFilter_tt : (channelGroups Channel.tt).filter (fun g => decide (g ≠ FGroup.QCD)) =
    [FGroup.data, FGroup.W, FGroup.TT, FGroup.DY, FGroup.real] := by decide

theorem qcdRaw_et (store : Store) (cat : String) (i : ℕ) :
    qcdRaw store .et cat i =
      rawGroup store .et cat FGroup.data i - rawGroup store .et cat FGroup.W i -
        rawGroup store .et cat FGroup.TT i - rawGroup store .et cat FGroup.real i := by
  simp only [qcdRaw, qcdFilter_et, List.foldl_cons, List.foldl_nil, reduceCtorEq,
    if_false, if_true, reduceIte]
  ring

theorem qcdRaw_mt (store : Store) (cat : String) (i : ℕ) :
    qcdRaw store .mt cat i =
      rawGroup store .mt cat FGroup.data i - rawGroup store .mt cat FGroup.W i -
        rawGroup store .mt cat FGroup.TT i - rawGroup store .mt cat FGroup.real i := by
  simp only [qcdRaw, qcdFilter_mt, List.foldl_cons, List.foldl_nil, reduceCtorEq,
    if_false, if_true, reduceIte]
  ring

theorem qcdRaw_tt (store : Store) (cat : String) (i : ℕ) :
    qcdRaw store .tt cat i =
      rawGroup store .tt cat FGroup.data i - rawGroup store .tt cat FGroup.W i -
        rawGroup store .tt cat FGroup.TT i - rawGroup store .tt cat FGroup.DY i -
        rawGroup store .tt cat FGroup.real i := by
  simp only [qcdRaw, qcdFilter_tt, List.foldl_cons, List.foldl_nil, reduceCtorEq,
    if_false, if_true, reduceIte]
  ring

theorem correctedFrac_of_neg (store : Store) (ch : Channel) (cat : String) (i : ℕ)
    (h : fracBefore store ch cat FGroup.QCD i < 0) (g : FGroup)
    (hgd : g ≠ FGroup.data) (hgq : g ≠ FGroup.QCD) :
    correctedFrac store ch cat g i =
      fracBefore store ch cat g i / (1 - fracBefore store ch cat FGroup.QCD i) := by
  simp [correctedFrac, h, hgd, hgq]

theorem correctedFrac_qcd_of_neg (store : Store) (ch : Channel) (cat : String) (i : ℕ)
    (h : fracBefore store ch cat FGroup.QCD i < 0) :
    correctedFrac store ch cat FGroup.QCD i = 0 := by
  simp [correctedFrac, h]

theorem correctedFrac_of_nonneg (store : Store) (ch : Channel) (cat : String) (i : ℕ)
    (h : ¬ fracBefore store ch cat FGroup.QCD i < 0) (g : FGroup) :
    correctedFrac store ch cat g i = fracBefore store ch cat g i := by
  simp [correctedFrac, h]

/-- C1 (amended): for every store slice, channel, category and bin at which
the data histogram is positive and each non-QCD process group sums to a
non-negative content, the computed fractions of all groups (QCD, W, TT,
real, and DY where present) sum to exactly 1 and none is negative. -/
theorem frac_sum_one_nonneg (store : Store) (ch : Channel) (cat : String) (i : ℕ)
    (hd : 0 < rawGroup store ch cat FGroup.data i)
    (hW : 0 ≤ rawGroup store ch cat FGroup.W i)
    (hT : 0 ≤ rawGroup store ch cat FGroup.TT i)
    (hR : 0 ≤ rawGroup store ch cat FGroup.real i)
    (hD : 0 ≤ rawGroup store ch cat FGroup.DY i) :
    ((fractionGroups ch).map (fun g => correctedFrac store ch cat g i)).sum = 1 ∧
    ∀ g ∈ fractionGroups ch, 0 ≤ correctedFrac store ch cat g i := by
  rcases ch with _ | _ | _
  · -- et
    have hd0 : rawGroup store .et cat FGroup.data i ≠ 0 := ne_of_gt hd
    set d := rawGroup store .et cat FGroup.data i with hdef
    set w := rawGroup store .et cat FGroup.W i with hwdef
    set t := rawGroup store .et cat FGroup.TT i with htdef
    set r := rawGroup store .et cat FGroup.real i with hrdef
    have hfilter : (channelGroups Channel.et).filter (fun g => decide (g ≠ FGroup.QCD)) =
        [FGroup.data, FGroup.W, FGroup.TT, FGroup.real] := by decide
    have hqcd : qcdRaw store .et cat i = d - w - t - r := by
      simp only [qcdRaw, hfilter, List.foldl_cons, List.foldl_nil, reduceCtorEq,
        if_false, if_true, reduceIte]
      ring
    have hq : fracBefore store .et cat FGroup.QCD i = (d - w - t - r) / d := by
      simp [fracBefore, groupRaw, hqcd, rootDiv, hd0]
    have hfb : ∀ g : FGroup, g ≠ FGroup.QCD → fracBefore store .et cat g i =
        rawGroup store .et cat g i / d := by
      intro g hg
      simp [fracBefore, groupRaw, hg, rootDiv, hd0]
    by_cases hneg : fracBefore store .et cat FGroup.QCD i < 0
    · have hnum : d - w - t - r < 0 := by
        rw [hq] at hneg
        by_contra hc
        push_neg at hc
        have := div_nonneg hc (le_of_lt hd)
        linarith
      have hwtr : (0:ℚ) < w + t + r := by linarith
      have h1q : (0:ℚ) < 1 - fracBefore store .et cat FGroup.QCD i := by linarith
      constructor
      · simp only [fractionGroups_et, List.map_cons, List.map_nil, List.sum_cons,
          List.sum_nil]
        rw [correctedFrac_of_neg store .et cat i hneg FGroup.W (by decide) (by decide),
          correctedFrac_of_neg store .et cat i hneg FGroup.TT (by decide) (by decide),
          correctedFrac_of_neg store .et cat i hneg FGroup.real (by decide) (by decide),
          correctedFrac_qcd_of_neg store .et cat i hneg]
        rw [hfb FGroup.W (by decide), hfb FGroup.TT (by decide),
          hfb FGroup.real (by decide), hq]
        field_simp
        have hden : d - (d - w - t - r) ≠ 0 := by
          intro h
          exact hwtr.ne' (by linarith)
        rw [div_eq_one_iff_eq hden]
        ring
      · intro g hg
        rw [fractionGroups_et] at hg
        simp only [List.mem_cons, List.not_mem_nil, or_false] at hg
        rcases hg with rfl | rfl | rfl | rfl
        · rw [correctedFrac_of_neg store .et cat i hneg FGroup.W (by decide) (by decide),
            hfb FGroup.W (by decide)]
          positivity
        · rw [correctedFrac_of_neg store .et cat i hneg FGroup.TT (by decide) (by decide),
            hfb FGroup.TT (by decide)]
          positivity
        · rw [correctedFrac_qcd_of_neg store .et cat i hneg]
        · rw [correctedFrac_of_neg store .et cat i hneg FGroup.real (by decide) (by decide),
            hfb FGroup.real (by decide)]
          positivity
    · constructor
      · simp only [fractionGroups_et, List.map_cons, List.map_nil, List.sum_cons,
          List.sum_nil]
        rw [correctedFrac_of_nonneg store .et cat i hneg FGroup.W,
          correctedFrac_of_nonneg store .et cat i hneg FGroup.TT,
          correctedFrac_of_nonneg store .et cat i hneg FGroup.real,
          correctedFrac_of_nonneg store .et cat i hneg FGroup.QCD]
        rw [hfb FGroup.W (by decide), hfb FGroup.TT (by decide),
          hfb FGroup.real (by decide), hq]
        field_simp
        try ring
      · intro g hg
        push_neg at hneg
        rw [fractionGroups_et] at hg
        simp only [List.mem_cons, List.not_mem_nil, or_false] at hg
        rcases hg with rfl | rfl | rfl | rfl
        · rw [correctedFrac_of_nonneg store .et cat i (not_lt.mpr hneg) FGroup.W,
            hfb FGroup.W (by decide)]
          positivity
        · rw [correctedFrac_of_nonneg store .et cat i (not_lt.mpr hneg) FGroup.TT,
            hfb FGroup.TT (by decide)]
          positivity
        · rw [correctedFrac_of_nonneg store .et cat i (not_lt.mpr hneg) FGroup.QCD]
          exact hneg
        · rw [correctedFrac_of_nonneg store .et cat i (not_lt.mpr hneg) FGroup.real,
            hfb FGroup.real (by decide)]
          positivity
  · -- mt
    have hd0 : rawGroup store .mt cat FGroup.data i ≠ 0 := ne_of_gt hd
    set d := rawGroup store .mt cat FGroup.data i with hdef
    set w := rawGroup store .mt cat FGroup.W i with hwdef
    set t := rawGroup store .mt cat FGroup.TT i with htdef
    set r := rawGroup store .mt cat FGroup.real i with hrdef
    have hfilter : (channelGroups Channel.mt).filter (fun g => decide (g ≠ FGroup.QCD)) =
        [FGroup.data, FGroup.W, FGroup.TT, FGroup.real] := by decide
    have hqcd : qcdRaw store .mt cat i = d - w - t - r := by
      simp only [qcdRaw, hfilter, List.foldl_cons, List.foldl_nil, reduceCtorEq,
        if_false, if_true, reduceIte]
      ring
    have hq : fracBefore store .mt cat FGroup.QCD i = (d - w - t - r) / d := by
      simp [fracBefore, groupRaw, hqcd, rootDiv, hd0]
    have hfb : ∀ g : FGroup, g ≠ FGroup.QCD → fracBefore store .mt cat g i =
        rawGroup store .mt cat g i / d := by
      intro g hg
      simp [fracBefore, groupRaw, hg, rootDiv, hd0]
    by_cases hneg : fracBefore store .mt cat FGroup.QCD i < 0
    · have hnum : d - w - t - r < 0 := by
        rw [hq] at hneg
        by_contra hc
        push_neg at hc
        have := div_nonneg hc (le_of_lt hd)
        linarith
      have hwtr : (0:ℚ) < w + t + r := by linarith
      have h1q : (0:ℚ) < 1 - fracBefore store .mt cat FGroup.QCD i := by linarith
      constructor
      · simp only [fractionGroups_mt, List.map_cons, List.map_nil, List.sum_cons,
          List.sum_nil]
        rw [correctedFrac_of_neg store .mt cat i hneg FGroup.W (by decide) (by decide),
          correctedFrac_of_neg store .mt cat i hneg FGroup.TT (by decide) (by decide),
          correctedFrac_of_neg store .mt cat i hneg FGroup.real (by decide) (by decide),
          correctedFrac_qcd_of_neg store .mt cat i hneg]
        rw [hfb FGroup.W (by decide), hfb FGroup.TT (by decide),
          hfb FGroup.real (by decide), hq]
        field_simp
        have hden : d - (d - w - t - r) ≠ 0 := by
          intro h
          exact hwtr.ne' (by linarith)
        rw [div_eq_one_iff_eq hden]
        ring
      · intro g hg
        rw [fractionGroups_mt] at hg
        simp only [List.mem_cons, List.not_mem_nil, or_false] at hg
        rcases hg with rfl | rfl | rfl | rfl
        · rw [correctedFrac_of_neg store .mt cat i hneg FGroup.W (by decide) (by decide),
            hfb FGroup.W (by decide)]
          positivity
        · rw [correctedFrac_of_neg store .mt cat i hneg FGroup.TT (by decide) (by decide),
            hfb FGroup.TT (by decide)]
          positivity
        · rw [correctedFrac_qcd_of_neg store .mt cat i hneg]
        · rw [correctedFrac_of_neg store .mt cat i hneg FGroup.real (by decide) (by decide),
            hfb FGroup.real (by decide)]
          positivity
    · constructor
      · simp only [fractionGroups_mt, List.map_cons, List.map_nil, List.sum_cons,
          List.sum_nil]
        rw [correctedFrac_of_nonneg store .mt cat i hneg FGroup.W,
          correctedFrac_of_nonneg store .mt cat i hneg FGroup.TT,
          correctedFrac_of_nonneg store .mt cat i hneg FGroup.real,
          correctedFrac_of_nonneg store .mt cat i hneg FGroup.QCD]
        rw [hfb FGroup.W (by decide), hfb FGroup.TT (by decide),
          hfb FGroup.real (by decide), hq]
        field_simp
        try ring
      · intro g hg
        push_neg at hneg
        rw [fractionGroups_mt] at hg
        simp only [List.mem_cons, List.not_mem_nil, or_false] at hg
        rcases hg with rfl | rfl | rfl | rfl
        · rw [correctedFrac_of_nonneg store .mt cat i (not_lt.mpr hneg) FGroup.W,
            hfb FGroup.W (by decide)]
          positivity
        · rw [correctedFrac_of_nonneg store .mt cat i (not_lt.mpr hneg) FGroup.TT,
            hfb FGroup.TT (by decide)]
          positivity
        · rw [correctedFrac_of_nonneg store .mt cat i (not_lt.mpr hneg) FGroup.QCD]
          exact hneg
        · rw [correctedFrac_of_nonneg store .mt cat i (not_lt.mpr hneg) FGroup.real,
            hfb FGroup.real (by decide)]
          positivity
  · -- tt
    have hd0 : rawGroup store .tt cat FGroup.data i ≠ 0 := ne_of_gt hd
    set d := rawGroup store .tt cat FGroup.data i with hdef
    set w := rawGroup store .tt cat FGroup.W i with hwdef
    set t := rawGroup store .tt cat FGroup.TT i with htdef
    set y := rawGroup store .tt cat FGroup.DY i with hydef
    set r := rawGroup store .tt cat FGroup.real i with hrdef
    have hfilter : (channelGroups Channel.tt).filter (fun g => decide (g ≠ FGroup.QCD)) =
        [FGroup.data, FGroup.W, FGroup.TT, FGroup.DY, FGroup.real] := by decide
    have hqcd : qcdRaw store .tt cat i = d - w - t - y - r := by
      simp only [qcdRaw, hfilter, List.foldl_cons, List.foldl_nil, reduceCtorEq,
        if_false, if_true, reduceIte]
      ring
    have hq : fracBefore store .tt cat FGroup.QCD i = (d - w - t - y - r) / d := by
      simp [fracBefore, groupRaw, hqcd, rootDiv, hd0]
    have hfb : ∀ g : FGroup, g ≠ FGroup.QCD → fracBefore store .tt cat g i =
        rawGroup store .tt cat g i / d := by
      intro g hg
      simp [fracBefore, groupRaw, hg, rootDiv, hd0]
    by_cases hneg : fracBefore store .tt cat FGroup.QCD i < 0
    · have hnum : d - w - t - y - r < 0 := by
        rw [hq] at hneg
        by_contra hc
        push_neg at hc
        have := div_nonneg hc (le_of_lt hd)
        linarith
      have hwtr : (0:ℚ) < w + t + y + r := by linarith
      have h1q : (0:ℚ) < 1 - fracBefore store .tt cat FGroup.QCD i := by linarith
      constructor
      · simp only [fractionGroups_tt, List.map_cons, List.map_nil, List.sum_cons,
          List.sum_nil]
        rw [correctedFrac_of_neg store .tt cat i hneg FGroup.W (by decide) (by decide),
          correctedFrac_of_neg store .tt cat i hneg FGroup.TT (by decide) (by decide),
          correctedFrac_of_neg store .tt cat i hneg FGroup.DY (by decide) (by decide),
          correctedFrac_of_neg store .tt cat i hneg FGroup.real (by decide) (by decide),
          correctedFrac_qcd_of_neg store .tt cat i hneg]
        rw [hfb FGroup.W (by decide), hfb FGroup.TT (by decide),
          hfb FGroup.DY (by decide), hfb FGroup.real (by decide), hq]
        field_simp
        have hden : d - (d - w - t - y - r) ≠ 0 := by
          intro h
          exact hwtr.ne' (by linarith)
        rw [div_eq_one_iff_eq hden]
        ring
      · intro g hg
        rw [fractionGroups_tt] at hg
        simp only [List.mem_cons, List.not_mem_nil, or_false] at hg
        rcases hg with rfl | rfl | rfl | rfl | rfl
        · rw [correctedFrac_of_neg store .tt cat i hneg FGroup.W (by decide) (by decide),
            hfb FGroup.W (by decide)]
          positivity
        · rw [correctedFrac_of_neg store .tt cat i hneg FGroup.TT (by decide) (by decide),
            hfb FGroup.TT (by decide)]
          positivity
        · rw [correctedFrac_qcd_of_neg store .tt cat i hneg]
        · rw [correctedFrac_of_neg store .tt cat i hneg FGroup.DY (by decide) (by decide),
            hfb FGroup.DY (by decide)]
          positivity
        · rw [correctedFrac_of_neg store .tt cat i hneg FGroup.real (by decide) (by decide),
            hfb FGroup.real (by decide)]
          positivity
    · constructor
      · simp only [fractionGroups_tt, List.map_cons, List.map_nil, List.sum_cons,
          List.sum_nil]
        rw [correctedFrac_of_nonneg store .tt cat i hneg FGroup.W,
          correctedFrac_of_nonneg store .tt cat i hneg FGroup.TT,
          correctedFrac_of_nonneg store .tt cat i hneg FGroup.DY,
          correctedFrac_of_nonneg store .tt cat i hneg FGroup.real,
          correctedFrac_of_nonneg store .tt cat i hneg FGroup.QCD]
        rw [hfb FGroup.W (by decide), hfb FGroup.TT (by decide),
          hfb FGroup.DY (by decide), hfb FGroup.real (by decide), hq]
        field_simp
        try ring
      · intro g hg
        push_neg at hneg
        rw [fractionGroups_tt] at hg
        simp only [List.mem_cons, List.not_mem_nil, or_false] at hg
        rcases hg with rfl | rfl | rfl | rfl | rfl
        · rw [correctedFrac_of_nonneg store .tt cat i (not_lt.mpr hneg) FGroup.W,
            hfb FGroup.W (by decide)]
          positivity
        · rw [correctedFrac_of_nonneg store .tt cat i (not_lt.mpr hneg) FGroup.TT,
            hfb FGroup.TT (by decide)]
          positivity
        · rw [correctedFrac_of_nonneg store .tt cat i (not_lt.mpr hneg) FGroup.QCD]
          exact hneg
        · rw [correctedFrac_of_nonneg store .tt cat i (not_lt.mpr hneg) FGroup.DY,
            hfb FGroup.DY (by decide)]
          positivity
        · rw [correctedFrac_of_nonneg store .tt cat i (not_lt.mpr hneg) FGroup.real,
            hfb FGroup.real (by decide)]
          positivity

/-- Concrete template-store slice: `data_obs` has bin contents 10 and 10 in
bins 1 and 2, process `W` has 12 and 4, everything else is zero. -/
def exampleStore : Store := fun _ p i =>
  if p = "data_obs" then (if i = 1 then 10 else if i = 2 then 10 else 0)
  else if p = "W" then (if i = 1 then 12 else if i = 2 then 4 else 0)
  else 0

/-- Concrete template-store slice whose data histogram is identically zero
while process `W` holds 5 in every bin. -/
def zeroDataStore : Store := fun _ p _ => if p = "W" then 5 else 0

/-- C1 fails as stated: when the data histogram has a zero bin while a
process histogram does not (here `zeroDataStore`), ROOT division yields zero
for every fraction and the bin's fractions sum to 0, not 1. -/
theorem frac_sum_claim_counterexample :
    ((fractionGroups .mt).map (fun g => correctedFrac zeroDataStore .mt "ggh" g 0)).sum ≠ 1 := by
  simp only [fractionGroups_mt, correctedFrac, fracBefore, groupRaw, qcdRaw_mt,
    rawGroup, rootDiv, composition, zeroDataStore, String.reduceEq, reduceCtorEq,
    reduceIte, if_false, if_true, List.map_cons, List.map_nil, List.sum_cons,
    List.sum_nil]
  norm_num

/-- C4: on the concrete input with data bins (10, 10) and a single non-QCD
process histogram with bins (12, 4), the raw QCD fraction of bin 1 is -0.2,
the correction zeroes QCD and rescales the other group to 1.0, bin 2 gives
QCD = 0.6 and the other group 0.4, and both bins sum to 1. -/
theorem frac_concrete_example :
    fracBefore exampleStore .mt "ggh" FGroup.QCD 1 = -(1/5) ∧
    correctedFrac exampleStore .mt "ggh" FGroup.QCD 1 = 0 ∧
    correctedFrac exampleStore .mt "ggh" FGroup.W 1 = 1 ∧
    correctedFrac exampleStore .mt "ggh" FGroup.QCD 2 = 3/5 ∧
    correctedFrac exampleStore .mt "ggh" FGroup.W 2 = 2/5 ∧
    ((fractionGroups .mt).map (fun g => correctedFrac exampleStore .mt "ggh" g 1)).sum = 1 ∧
    ((fractionGroups .mt).map (fun g => correctedFrac exampleStore .mt "ggh" g 2)).sum = 1 := by
  simp only [fractionGroups_mt, correctedFrac, fracBefore, groupRaw, qcdRaw_mt,
    rawGroup, rootDiv, composition, exampleStore, String.reduceEq, reduceCtorEq,
    reduceIte, if_false, if_true, List.map_cons, List.map_nil, List.sum_cons,
    List.sum_nil, Nat.reduceEqDiff]
  norm_num

/-- Witness for `frac_sum_one_nonneg`: instantiated at `exampleStore`,
channel mt, category ggh, bin 1 (a bin exercising the negative-QCD branch). -/
theorem frac_sum_one_nonneg_witness :
    ((fractionGroups .mt).map (fun g => correctedFrac exampleStore .mt "ggh" g 1)).sum = 1 ∧
    ∀ g ∈ fractionGroups .mt, 0 ≤ correctedFrac exampleStore .mt "ggh" g 1 :=
  frac_sum_one_nonneg exampleStore .mt "ggh" 1
    (by
      simp only [rawGroup, composition, exampleStore, String.reduceEq, reduceIte,
        if_true, if_false, List.map_cons, List.map_nil, List.sum_cons, List.sum_nil]
      norm_num)
    (by
      simp only [rawGroup, composition, exampleStore, String.reduceEq, reduceIte,
        if_true, if_false, List.map_cons, List.map_nil, List.sum_cons, List.sum_nil]
      norm_num)
    (by
      simp only [rawGroup, composition, exampleStore, String.reduceEq, reduceIte,
        if_true, if_false, List.map_cons, List.map_nil, List.sum_cons, List.sum_nil]
      norm_num)
    (by
      simp only [rawGroup, composition, exampleStore, String.reduceEq, reduceIte,
        if_true, if_false, List.map_cons, List.map_nil, List.sum_cons, List.sum_nil]
      norm_num)
    (by
      simp only [rawGroup, composition, exampleStore, String.reduceEq, reduceIte,
        if_true, if_false, List.map_cons, List.map_nil, List.sum_cons, List.sum_nil]
      norm_num)

/-- The per-channel systematic uncertainty shift names of `apply_fake_factors`
(lines 174-197). -/
def unc_shifts : Channel → List String
  | .et =>
    ["ff_qcd_syst", "ff_qcd_dm0_njet0_stat", "ff_qcd_dm0_njet1_stat",
     "ff_qcd_dm1_njet0_stat", "ff_qcd_dm1_njet1_stat", "ff_w_syst",
     "ff_w_dm0_njet0_stat", "ff_w_dm0_njet1_stat",
     "ff_w_dm1_njet0_stat", "ff_w_dm1_njet1_stat", "ff_tt_syst",
     "ff_tt_dm0_njet0_stat", "ff_tt_dm0_njet1_stat",
     "ff_tt_dm1_njet0_stat", "ff_tt_dm1_njet1_stat"]
  | .mt =>
    ["ff_qcd_syst", "ff_qcd_dm0_njet0_stat", "ff_qcd_dm0_njet1_stat",
     "ff_qcd_dm1_njet0_stat", "ff_qcd_dm1_njet1_stat", "ff_w_syst",
     "ff_w_dm0_njet0_stat", "ff_w_dm0_njet1_stat",
     "ff_w_dm1_njet0_stat", "ff_w_dm1_njet1_stat", "ff_tt_syst",
     "ff_tt_dm0_njet0_stat", "ff_tt_dm0_njet1_stat",
     "ff_tt_dm1_njet0_stat", "ff_tt_dm1_njet1_stat"]
  | .tt =>
    ["ff_qcd_syst", "ff_qcd_dm0_njet0_stat", "ff_qcd_dm0_njet1_stat",
     "ff_qcd_dm1_njet0_stat", "ff_qcd_dm1_njet1_stat", "ff_w_syst",
     "ff_tt_syst", "ff_w_frac_syst", "ff_tt_frac_syst",
     "ff_dy_frac_syst"]

/-- The `suffix` dictionary of `apply_fake_factors` (lines 231-235): the tau
leg indices needing a fake factor, one per tau. -/
def ffLegs : Channel → List ℕ
  | .et => [2]
  | .mt => [2]
  | .tt => [1, 2]

/-- The per-channel category lists configured in `main` (lines 313-320). -/
def categories : Channel → List String
  | .et => ["ggh", "qqh", "ztt", "zll", "w", "tt", "ss", "misc"]
  | .mt => ["ggh", "qqh", "ztt", "zll", "w", "tt", "ss", "misc"]
  | .tt =>
    ["tt1_ggh", "tt1_qqh", "tt1_ztt", "tt1_noniso", "tt1_misc",
     "tt2_ggh", "tt2_qqh", "tt2_ztt", "tt2_noniso", "tt2_misc"]

/-- Python `int()` applied to a float: truncation toward zero. -/
def truncQ (q : ℚ) : ℤ := if 0 ≤ q then Int.floor q else -Int.floor (-q)

/-- The category-list index computed in the event loop (lines 254-257):
`int(event.<ch>_max_index + (0.5 * len(categories[ch]) if ch == "tt" and
x == 2 else 0.0))`. -/
def catIndex (ch : Channel) (x : ℕ) (maxIndex : ℚ) : ℤ :=
  truncQ (maxIndex +
    (if ch = Channel.tt ∧ x = 2 then (1 / 2 : ℚ) * ((categories ch).length : ℚ)
     else 0))

/-- ROOT `TAxis::FindBin` over an ordered edge list: bin 0 is underflow,
bin `n + 1` overflow, and a value in `[edge k, edge k+1)` lies in bin
`k + 1`; equivalently, the number of edges that are at most the value. -/
def findBin (edges : List ℚ) (v : ℚ) : ℕ :=
  (edges.filter (fun e => decide (e ≤ v))).length

/-- An event record of the joined primary/friend ntuple with the branches
read by `apply_fake_factors`.  `max_index` stands for the channel-specific
`<ch>_max_index` branch and `expr_val` for the branch named by
`args.config[channel]["expression"]`. -/
structure Event where
  pt_1 : ℚ
  pt_2 : ℚ
  decayMode_1 : ℚ
  decayMode_2 : ℚ
  njets : ℚ
  m_vis : ℚ
  mt_1 : ℚ
  iso_1 : ℚ
  max_index : ℚ
  expr_val : ℚ

/-- `getattr(event, "pt_%i" % x)` for the tau-tau branches. -/
def Event.pt (e : Event) : ℕ → ℚ
  | 1 => e.pt_1
  | _ => e.pt_2

/-- `getattr(event, "decayMode_%i" % x)` for the tau-tau branches. -/
def Event.decayMode (e : Event) : ℕ → ℚ
  | 1 => e.decayMode_1
  | _ => e.decayMode_2

/-- The shared `CompositionFractions` value handed to every worker: for each
channel the bin edges of the source templates and, per category and fraction
group, the histogram contents. -/
structure Fractions where
  edges : Channel → List ℚ
  content : Channel → String → FGroup → ℕ → ℚ

/-- The category name resolved for leg `x` of an event (line 254):
`categories[channel][int(... max_index ... )]`. -/
def resolveCategory (ch : Channel) (x : ℕ) (e : Event) : String :=
  (categories ch).getD (catIndex ch x e.max_index).toNat ""

/-- The feature vector built for leg `x` (lines 259-276): kinematics first,
then the fraction values of the resolved category at bin `bin`. -/
def buildInputs (ch : Channel) (x : ℕ) (e : Event) (fr : Fractions)
    (cat : String) (bin : ℕ) : List ℚ :=
  match ch with
  | .tt =>
    [e.pt x, e.pt (3 - x), e.decayMode x, e.njets, e.m_vis,
     fr.content .tt cat FGroup.QCD bin, fr.content .tt cat FGroup.W bin,
     fr.content .tt cat FGroup.TT bin, fr.content .tt cat FGroup.DY bin]
  | _ =>
    [e.pt_2, e.decayMode_2, e.njets, e.m_vis, e.mt_1, e.iso_1,
     fr.content ch cat FGroup.QCD bin, fr.content ch cat FGroup.W bin,
     fr.content ch cat FGroup.TT bin]

/-- The feature vector of leg `x` of an event, with the category resolved
from `max_index` and the bin found from the configured expression value on
the data histogram's axis. -/
def eventInputs (fr : Fractions) (ch : Channel) (e : Event) (x : ℕ) : List ℚ :=
  buildInputs ch x e fr (resolveCategory ch x e) (findBin (fr.edges ch) e.expr_val)

/-- An IEEE double that may be NaN: `none` is NaN, `some q` a finite value.
The fake-factor evaluator returns such values. -/
abbrev FVal := Option ℚ

/-- IEEE `<=` on possibly-NaN doubles: any comparison with NaN is false. -/
def fle : FVal → FVal → Bool
  | some a, some b => decide (a ≤ b)
  | _, _ => false

/-- The opaque fitted fake-factor function: maps a feature vector and an
optional systematic shift name (`none` for the nominal call) to a raw,
unclamped double. -/
abbrev FF := List ℚ → Option String → FVal

/-- The nominal clamp (lines 279-280): `if not (v >= 0.0 and v <= 999.0):
v = 0.0`.  Nothing is logged on this path. -/
def clampNominal (raw : FVal) : FVal :=
  if fle (some 0) raw && fle raw (some 999) then raw else some 0

/-- A record printed by the systematic-shift clamp: the concatenated
systematic-and-shift name, the raw value, and the input feature vector
(lines 288-290). -/
structure LogEntry where
  name : String
  raw : FVal
  inputs : List ℚ
deriving DecidableEq

/-- The systematic-shift clamp (lines 286-291): same range test; an
out-of-range value is recorded (`print syst + shift`, `print value`,
`print inputs`) and replaced by 0. -/
def clampSyst (name : String) (raw : FVal) (inputs : List ℚ) :
    FVal × List LogEntry :=
  if fle (some 0) raw && fle raw (some 999) then (raw, [])
  else (some 0, [⟨name, raw, inputs⟩])

/-- The output branches and log records produced for one leg `x` of one
event: the nominal branch `ff<x>_nom` followed by `ff<x>_<syst>_<shift>` for
every systematic source and shift direction (lines 277-291). -/
def legRow (ff : FF) (ch : Channel) (x : ℕ) (inputs : List ℚ) :
    List (String × FVal) × List LogEntry :=
  let nomVal := clampNominal (ff inputs none)
  let systPairs := (unc_shifts ch).flatMap (fun syst =>
    ["up", "down"].map (fun sh =>
      let r := clampSyst (syst ++ sh) (ff inputs (some (syst ++ "_" ++ sh))) inputs
      (("ff" ++ toString x ++ "_" ++ syst ++ "_" ++ sh, r.1), r.2)))
  (("ff" ++ toString x ++ "_nom", nomVal) :: systPairs.map Prod.fst,
   systPairs.flatMap Prod.snd)

/-- All branches and log records of one event: one block per relevant leg. -/
def eventRow (ff : FF) (fr : Fractions) (ch : Channel) (e : Event) :
    List (String × FVal) × List LogEntry :=
  ((ffLegs ch).flatMap (fun x => (legRow ff ch x (eventInputs fr ch e x)).1),
   (ffLegs ch).flatMap (fun x => (legRow ff ch x (eventInputs fr ch e x)).2))

/-- The fill loop of `apply_fake_factors` (lines 251-292): one output row per
input event, in input order (`output_tree.Fill()` once per iteration). -/
def processEvents (ff : FF) (fr : Fractions) (ch : Channel)
    (events : List Event) : List (List (String × FVal)) :=
  events.map (fun e => (eventRow ff fr ch e).1)

/-- The fill loop with the shared fractions value threaded through it
explicitly: the worker only ever reads the fractions (via `GetBinContent`
and `FindBin`), so each step passes the structure on unchanged. -/
def processEventsState (ff : FF) (ch : Channel) (fr : Fractions) :
    List Event → Fractions × List (List (String × FVal))
  | [] => (fr, [])
  | e :: rest =>
    let row := (eventRow ff fr ch e).1
    let next := processEventsState ff ch fr rest
    (next.1, row :: next.2)

/-- Every value the nominal clamp stores is a finite rational in [0, 999]. -/
theorem clampNominal_bounds (raw : FVal) :
    ∃ q : ℚ, clampNominal raw = some q ∧ 0 ≤ q ∧ q ≤ 999 := by
  rcases raw with _ | v
  · exact ⟨0, by simp [clampNominal, fle], le_refl 0, by norm_num⟩
  · by_cases h0 : (0:ℚ) ≤ v
    · by_cases h9 : v ≤ 999
      · exact ⟨v, by simp [clampNominal, fle, h0, h9], h0, h9⟩
      · exact ⟨0, by simp [clampNominal, fle, h9], le_refl 0, by norm_num⟩
    · exact ⟨0, by simp [clampNominal, fle, h0], le_refl 0, by norm_num⟩

/-- Every value the systematic clamp stores is a finite rational in [0, 999]. -/
theorem clampSyst_bounds (s : String) (raw : FVal) (ins : List ℚ) :
    ∃ q : ℚ, (clampSyst s raw ins).1 = some q ∧ 0 ≤ q ∧ q ≤ 999 := by
  rcases raw with _ | v
  · exact ⟨0, by simp [clampSyst, fle], le_refl 0, by norm_num⟩
  · by_cases h0 : (0:ℚ) ≤ v
    · by_cases h9 : v ≤ 999
      · exact ⟨v, by simp [clampSyst, fle, h0, h9], h0, h9⟩
      · exact ⟨0, by simp [clampSyst, fle, h9], le_refl 0, by norm_num⟩
    · exact ⟨0, by simp [clampSyst, fle, h0], le_refl 0, by norm_num⟩

/-- C2: every produced fake-factor value of an output row, nominal and every
systematic variant alike, is a finite value in [0, 999]; and whenever the
raw evaluator output fails the range test, the stored value is exactly 0. -/
theorem ff_values_clamped (ff : FF) (fr : Fractions) (ch : Channel) (e : Event) :
    (∀ p ∈ (eventRow ff fr ch e).1, ∃ q : ℚ, p.2 = some q ∧ 0 ≤ q ∧ q ≤ 999) ∧
    ∀ (raw : FVal) (s : String) (ins : List ℚ),
      (fle (some 0) raw && fle raw (some 999)) = false →
      clampNominal raw = some 0 ∧ (clampSyst s raw ins).1 = some 0 := by
  constructor
  · intro p hp
    simp only [eventRow, List.mem_flatMap] at hp
    obtain ⟨x, hx, hp⟩ := hp
    simp only [legRow, List.mem_cons, List.mem_map] at hp
    rcases hp with hp | ⟨pair, hpair, rfl⟩
    · rw [hp]
      exact clampNominal_bounds _
    · simp only [List.mem_flatMap, List.mem_map] at hpair
      obtain ⟨syst, hsyst, sh, hsh, rfl⟩ := hpair
      exact clampSyst_bounds _ _ _
  · intro raw s ins h
    exact ⟨by simp [clampNominal, h], by simp [clampSyst, h]⟩

/-- C10: the out-of-range test is inclusive at both bounds: raw values
exactly 0 or exactly 999 are stored unchanged, NaN fails both comparisons,
and any raw value failing `0 <= v <= 999` is stored as 0. -/
theorem clamp_bounds_inclusive_nan :
    clampNominal (some 0) = some 0 ∧ clampNominal (some 999) = some 999 ∧
    clampNominal none = some 0 ∧
    fle (some 0) none = false ∧ fle none (some 999) = false ∧
    (∀ (s : String) (ins : List ℚ),
      (clampSyst s (some 0) ins).1 = some 0 ∧
      (clampSyst s (some 999) ins).1 = some 999 ∧
      (clampSyst s none ins).1 = some 0) ∧
    ∀ v : FVal, (fle (some 0) v && fle v (some 999)) = false →
      clampNominal v = some 0 := by
  refine ⟨by norm_num [clampNominal, fle], by norm_num [clampNominal, fle],
    by simp [clampNominal, fle], rfl, rfl, ?_, ?_⟩
  · intro s ins
    exact ⟨by norm_num [clampSyst, fle], by norm_num [clampSyst, fle],
      by simp [clampSyst, fle]⟩
  · intro v h
    simp [clampNominal, h]

/-- C5: the output table has exactly as many rows as the input table, and
row `i` of the output is computed from row `i` of the input, for every `i`. -/
theorem rows_mirror_events (ff : FF) (fr : Fractions) (ch : Channel)
    (events : List Event) :
    (processEvents ff fr ch events).length = events.length ∧
    ∀ i : ℕ, ∀ h : i < events.length,
      (processEvents ff fr ch events).get ⟨i, by simpa [processEvents] using h⟩ =
        (eventRow ff fr ch (events.get ⟨i, h⟩)).1 := by
  refine ⟨by simp [processEvents], ?_⟩
  intro i h
  simp [processEvents]

/-- C9: the per-file worker never mutates the shared fractions structure:
threading it through the event loop returns it unchanged, since the loop
only reads it (`FindBin`, `GetBinContent`). -/
theorem worker_preserves_fractions (ff : FF) (ch : Channel) (fr : Fractions)
    (events : List Event) :
    (processEventsState ff ch fr events).1 = fr := by
  induction events with
  | nil => rfl
  | cons e rest ih => simpa [processEventsState] using ih

/-- C6: for every channel and leg, the feature vector is the object
kinematics (both legs' transverse momenta, the leg's decay mode, jet
multiplicity and visible mass for tau-tau; the second leg's transverse
momentum and decay mode, jet multiplicity, visible mass, leading-leg
transverse mass and isolation for the lepton-tau channels) followed by the
fraction values QCD, W, TT (and DY for tau-tau), looked up at the bin
resolved for the configured observable, in that order. -/
theorem feature_vector_structure (e : Event) (fr : Fractions) :
    (eventInputs fr .et e 2 =
      [e.pt_2, e.decayMode_2, e.njets, e.m_vis, e.mt_1, e.iso_1] ++
        [FGroup.QCD, FGroup.W, FGroup.TT].map
          (fun g => fr.content .et (resolveCategory .et 2 e) g
            (findBin (fr.edges .et) e.expr_val))) ∧
    (eventInputs fr .mt e 2 =
      [e.pt_2, e.decayMode_2, e.njets, e.m_vis, e.mt_1, e.iso_1] ++
        [FGroup.QCD, FGroup.W, FGroup.TT].map
          (fun g => fr.content .mt (resolveCategory .mt 2 e) g
            (findBin (fr.edges .mt) e.expr_val))) ∧
    (eventInputs fr .tt e 1 =
      [e.pt_1, e.pt_2, e.decayMode_1, e.njets, e.m_vis] ++
        [FGroup.QCD, FGroup.W, FGroup.TT, FGroup.DY].map
          (fun g => fr.content .tt (resolveCategory .tt 1 e) g
            (findBin (fr.edges .tt) e.expr_val))) ∧
    (eventInputs fr .tt e 2 =
      [e.pt_2, e.pt_1, e.decayMode_2, e.njets, e.m_vis] ++
        [FGroup.QCD, FGroup.W, FGroup.TT, FGroup.DY].map
          (fun g => fr.content .tt (resolveCategory .tt 2 e) g
            (findBin (fr.edges .tt) e.expr_val))) :=
  ⟨rfl, rfl, rfl, rfl⟩

/-- Python truncation agrees with the floor on non-negative arguments. -/
theorem truncQ_of_nonneg (q : ℚ) (h : 0 ≤ q) : truncQ q = Int.floor q := by
  simp [truncQ, h]

/-- C3: in the tau-tau channel, the list index used for leg 2 is the event's
category index plus half the category-list length, whatever leg 1 resolved
to, and (for the valid index range) the entry selected for leg 2 lies in the
second half of the configured tau-tau category list. -/
theorem tt_leg2_second_half (m : ℚ) (h0 : 0 ≤ m) (h5 : truncQ m < 5) :
    catIndex .tt 2 m = truncQ m + ((categories .tt).length : ℤ) / 2 ∧
    catIndex .tt 1 m = truncQ m ∧
    5 ≤ catIndex .tt 2 m ∧ catIndex .tt 2 m < 10 ∧
    (categories .tt).getD (catIndex .tt 2 m).toNat "" ∈ (categories .tt).drop 5 := by
  have hlen : ((categories Channel.tt).length : ℤ) / 2 = 5 := by decide
  have harg : m + (1 / 2 : ℚ) * ((categories Channel.tt).length : ℚ) = m + (5 : ℤ) := by
    norm_num [categories]
  have h20 : catIndex .tt 2 m = truncQ m + 5 := by
    rw [catIndex, if_pos ⟨rfl, rfl⟩, harg, truncQ_of_nonneg _ (by positivity),
      truncQ_of_nonneg m h0, Int.floor_add_int]
  have h1 : catIndex .tt 1 m = truncQ m := by
    norm_num [catIndex]
  have hfl0 : 0 ≤ truncQ m := by
    rw [truncQ_of_nonneg m h0]
    exact Int.floor_nonneg.mpr h0
  refine ⟨by rw [h20, hlen], h1, by omega, by omega, ?_⟩
  rw [h20]
  set n := truncQ m with hn
  interval_cases n <;> decide

/-- Evaluator stub returning 1500 on the nominal call and 1 on every
systematic-shift call. -/
def ffNomOut : FF := fun _ s => match s with
  | none => some 1500
  | some _ => some 1

/-- Fractions value with empty axes and all-zero contents. -/
def fr0 : Fractions := { edges := fun _ => [], content := fun _ _ _ _ => 0 }

/-- A concrete event record. -/
def e0 : Event :=
  { pt_1 := 40, pt_2 := 30, decayMode_1 := 0, decayMode_2 := 1, njets := 2,
    m_vis := 90, mt_1 := 10, iso_1 := 1 / 10, max_index := 0, expr_val := 50 }

/-- C7 fails as stated for the nominal evaluation: with an evaluator whose
nominal output is 1500 (all shifted outputs in range), the stored nominal
value is 0 but the worker emits no log record at all — the logging happens
only in the systematic-shift branch of `apply_fake_factors`. -/
theorem nominal_clamp_no_log_counterexample :
    (eventRow ffNomOut fr0 .mt e0).2 = [] ∧
    ("ff2_nom", (some 0 : FVal)) ∈ (eventRow ffNomOut fr0 .mt e0).1 := by
  constructor
  · simp [eventRow, legRow, ffLegs, ffNomOut, clampSyst, fle, unc_shifts]
  · simp only [eventRow, ffLegs, List.flatMap_cons, List.flatMap_nil,
      List.append_nil, legRow, ffNomOut]
    apply List.mem_cons.mpr
    left
    rfl

/-- C7 (amended): an out-of-range raw value is stored as exactly 0 in all
cases; for systematic variants a record containing the systematic name, the
raw value and the input feature vector is emitted, while the nominal clamp
emits no record. -/
theorem clamp_log_policy (s : String) (raw : FVal) (ins : List ℚ)
    (h : (fle (some 0) raw && fle raw (some 999)) = false) :
    clampNominal raw = some 0 ∧
    clampSyst s raw ins = (some 0, [⟨s, raw, ins⟩]) := by
  constructor
  · simp [clampNominal, h]
  · simp [clampSyst, h]

/-- Witness for `ff_values_clamped`: the head entry of a concrete output row
(raw nominal output 1500) and the clamps at raw value 1500. -/
theorem ff_values_clamped_witness :
    (∃ q : ℚ, (("ff2_nom", (some 0 : FVal)) : String × FVal).2 = some q ∧
      0 ≤ q ∧ q ≤ 999) ∧
    clampNominal (some 1500) = some 0 ∧
    (clampSyst "ff_qcd_systup" (some 1500) []).1 = some 0 :=
  ⟨(ff_values_clamped ffNomOut fr0 .mt e0).1 ("ff2_nom", some 0)
      (by
        simp only [eventRow, ffLegs, List.flatMap_cons, List.flatMap_nil,
          List.append_nil, legRow, ffNomOut]
        exact List.mem_cons.mpr (Or.inl rfl)),
   (ff_values_clamped ffNomOut fr0 .mt e0).2 (some 1500) "ff_qcd_systup" []
      (by rfl)⟩

/-- Witness for `rows_mirror_events` on the singleton event list. -/
theorem rows_mirror_events_witness :
    (processEvents ffNomOut fr0 .mt [e0]).length = [e0].length ∧
    (processEvents ffNomOut fr0 .mt [e0]).get ⟨0, by norm_num [processEvents]⟩ =
      (eventRow ffNomOut fr0 .mt ([e0].get ⟨0, by norm_num⟩)).1 :=
  ⟨(rows_mirror_events ffNomOut fr0 .mt [e0]).1,
   (rows_mirror_events ffNomOut fr0 .mt [e0]).2 0 (by norm_num)⟩

/-- Witness for `tt_leg2_second_half` at a concrete max-index value 1.5. -/
theorem tt_leg2_second_half_witness :
    0 ≤ (3 / 2 : ℚ) ∧ truncQ (3 / 2) < 5 ∧
    (categories .tt).getD (catIndex .tt 2 (3 / 2)).toNat "" ∈
      (categories .tt).drop 5 :=
  ⟨by norm_num, by norm_num [truncQ],
   (tt_leg2_second_half (3 / 2) (by norm_num) (by norm_num [truncQ])).2.2.2.2⟩

/-- Witness for `clamp_log_policy` at raw value 1500. -/
theorem clamp_log_policy_witness :
    clampNominal (some 1500) = some 0 ∧
    clampSyst "ff_qcd_systup" (some 1500) [] =
      (some 0, [⟨"ff_qcd_systup", some 1500, []⟩]) :=
  clamp_log_policy "ff_qcd_systup" (some 1500) [] (by rfl)

/-- Witness for `clamp_bounds_inclusive_nan` at raw value 1500. -/
theorem clamp_bounds_inclusive_nan_witness :
    clampNominal (some 1500) = some 0 :=
  clamp_bounds_inclusive_nan.2.2.2.2.2.2 (some 1500) (by rfl)

/-- Substring occurrence test on character lists, used to embed Python's
`in` operator on strings. -/
def listHasSub : List Char → List Char → Bool
  | [], n => decide (n = [])
  | c :: t, n => n.isPrefixOf (c :: t) || listHasSub t n

/-- Python `needle in haystack` for strings. -/
def strHasSub (h n : String) : Bool := listHasSub h.data n.data

/-- The command-line and configuration values that `main` reads while
enumerating data files (lines 324-362). -/
structure DispArgs where
  directory : String
  et_friend_directory : String
  mt_friend_directory : String
  tt_friend_directory : String
  era : String

/-- `os.path.join` for the two-component paths used here. -/
def pathJoin (a b : String) : String := a ++ "/" ++ b

/-- `path = os.path.join(entry, "%s.root" % entry)` (line 328). -/
def entryPath (entry : String) : String := pathJoin entry (entry ++ ".root")

/-- The channel-specific friend directory option. -/
def friendDirectory (a : DispArgs) : Channel → String
  | .et => a.et_friend_directory
  | .mt => a.mt_friend_directory
  | .tt => a.tt_friend_directory

/-- The `elif` chain classifying an entry name by substring (lines 336-356):
`SingleElectron`, then `SingleMuon`, then `Tau`; anything else fails the
naming-scheme check. -/
def entryChannel (entry : String) : Option Channel :=
  if strHasSub entry "SingleElectron" then some .et
  else if strHasSub entry "SingleMuon" then some .mt
  else if strHasSub entry "Tau" then some .tt
  else none

/-- The candidate filter of the enumeration loop (lines 326-327):
`"Run%s" % era in entry and ("Single" in entry or "Tau" in entry)`. -/
def isCandidateEntry (era entry : String) : Bool :=
  strHasSub entry ("Run" ++ era) && (strHasSub entry "Single" || strHasSub entry "Tau")

/-- One iteration of the enumeration loop (lines 325-362): a non-candidate
entry is skipped, a candidate yields its path after the primary file and the
channel-specific friend file pass the existence checks; any failed check is
fatal (`logger.critical` followed by `raise Exception`). -/
def checkEntry (fs : String → Bool) (a : DispArgs) (entry : String) :
    Except String (Option String) :=
  if isCandidateEntry a.era entry then
    if !fs (pathJoin a.directory (entryPath entry)) then
      .error "Expected file does not exist. Check --directory option!"
    else
      match entryChannel entry with
      | some ch =>
        if !fs (pathJoin (friendDirectory a ch) (entryPath entry)) then
          .error "Expected friend file does not exist."
        else .ok (some (entryPath entry))
      | none => .error "Filename does not match assumed naming scheme!"
  else .ok none

/-- The full enumeration loop: the `datafiles` list of `main`, or the first
fatal error. -/
def collectDatafiles (fs : String → Bool) (a : DispArgs) :
    List String → Except String (List String)
  | [] => .ok []
  | entry :: rest =>
    match checkEntry fs a entry with
    | .error msg => .error msg
    | .ok none => collectDatafiles fs a rest
    | .ok (some p) => (collectDatafiles fs a rest).map (fun l => p :: l)

/-- The files handed to `pool.map` (lines 364-378): enumeration must succeed
and the output directory must not pre-exist, otherwise nothing is
dispatched because `main` raised beforehand. -/
def dispatchedTasks (fs : String → Bool) (a : DispArgs) (entries : List String)
    (outDir : String) : List String :=
  match collectDatafiles fs a entries with
  | .error _ => []
  | .ok dfs => if fs outDir then [] else dfs

/-- If any entry of the enumeration fails its checks, the whole enumeration
is a fatal error. -/
theorem collectDatafiles_error_of_mem (fs : String → Bool) (a : DispArgs)
    (entries : List String) (entry : String) (hmem : entry ∈ entries)
    (herr : ∃ msg, checkEntry fs a entry = .error msg) :
    ∃ msg, collectDatafiles fs a entries = .error msg := by
  induction entries with
  | nil => cases hmem
  | cons hd rest ih =>
    rcases List.mem_cons.mp hmem with rfl | htl
    · obtain ⟨msg, hmsg⟩ := herr
      exact ⟨msg, by simp [collectDatafiles, hmsg]⟩
    · rcases hcheck : checkEntry fs a hd with msg | p
      · exact ⟨msg, by simp [collectDatafiles, hcheck]⟩
      · obtain ⟨msg, hmsg⟩ := ih htl
        rcases p with _ | p
        · exact ⟨msg, by simp [collectDatafiles, hcheck, hmsg]⟩
        · exact ⟨msg, by simp [collectDatafiles, hcheck, hmsg, Except.map]⟩

/-- C8: for every enumerated candidate input file whose companion friend
file does not exist in its channel-specific friend directory, the dispatcher
raises a fatal error and no per-file task is dispatched to the worker
pool. -/
theorem missing_friend_aborts (fs : String → Bool) (a : DispArgs)
    (entries : List String) (entry : String) (ch : Channel)
    (hmem : entry ∈ entries)
    (hcand : isCandidateEntry a.era entry = true)
    (hch : entryChannel entry = some ch)
    (hfriend : fs (pathJoin (friendDirectory a ch) (entryPath entry)) = false) :
    (∃ msg, collectDatafiles fs a entries = .error msg) ∧
    ∀ outDir, dispatchedTasks fs a entries outDir = [] := by
  have herr : ∃ msg, checkEntry fs a entry = .error msg := by
    by_cases hprim : fs (pathJoin a.directory (entryPath entry))
    · refine ⟨"Expected friend file does not exist.", ?_⟩
      simp [checkEntry, hcand, hprim, hch, hfriend]
    · refine ⟨"Expected file does not exist. Check --directory option!", ?_⟩
      simp [checkEntry, hcand, hprim]
  obtain ⟨msg, hmsg⟩ := collectDatafiles_error_of_mem fs a entries entry hmem herr
  refine ⟨⟨msg, hmsg⟩, ?_⟩
  intro outDir
  simp [dispatchedTasks, hmsg]

/-- Concrete dispatcher arguments. -/
def dispArgs0 : DispArgs :=
  { directory := "artus", et_friend_directory := "etf",
    mt_friend_directory := "mtf", tt_friend_directory := "ttf", era := "2017" }

/-- A filesystem on which only the primary input file exists, not its
mt friend companion. -/
def fs0 : String → Bool :=
  fun p => p == "artus/SingleMuon_Run2017/SingleMuon_Run2017.root"

/-- Witness for `missing_friend_aborts` on a concrete one-entry listing. -/
theorem missing_friend_aborts_witness :
    (∃ msg, collectDatafiles fs0 dispArgs0 ["SingleMuon_Run2017"] = .error msg) ∧
    ∀ outDir, dispatchedTasks fs0 dispArgs0 ["SingleMuon_Run2017"] outDir = [] :=
  missing_friend_aborts fs0 dispArgs0 ["SingleMuon_Run2017"] "SingleMuon_Run2017"
    .mt (by decide) (by decide) (by decide) (by decide)
